import Mathlib

/-!
Verification development for the `tuf_update` repository (src/manifest.rs and
src/updater.rs): a shallow embedding of the manifest data model and the
reconciliation pass, together with theorems settling the specification claims.

Modelling conventions:
* `TargetName` is a `String` (the resolved target name).
* Hashes (`Decoded<Hex>` / `&[u8]`) are `List (Fin 256)` (byte sequences).
* `HashMap<TargetName, ManifestTargetEntry>` is an association list
  `List (String × ManifestTargetEntry)`; its iteration order is the list order.
* `u64` / `usize` values are `Nat`; where the Rust code subtracts
  (`targets.len() - errs.len()`) the embedding uses truncated `Nat`
  subtraction and the no-underflow claim is proved separately.
* Filesystem and network effects are explicit: the distribution directory is
  the list of file names present in it, `repo.save_target` / `fs::remove_file`
  / `self_replace::self_delete` / `Manifest::save` outcomes are oracles in an
  environment record, and progress events plus filesystem operations are
  recorded in an effect trace.
-/

set_option autoImplicit false

/-- A manifest target entry (`ManifestTargetEntry` in src/manifest.rs):
recorded length and sha256 hash of one applied file. -/
structure ManifestTargetEntry where
  length : Nat
  hash : List (Fin 256)
  deriving DecidableEq

/-- The persisted manifest (`Manifest` in src/manifest.rs). `files` is the
`HashMap<TargetName, ManifestTargetEntry>` as an association list, `version`
the `NonZeroU64` version and `incomplete_update` the completeness flag. -/
structure Manifest where
  files : List (String × ManifestTargetEntry)
  version : Nat
  incomplete_update : Bool
  deriving DecidableEq

/-- `Manifest::new_incomplete`: version 1, incomplete, empty file map. -/
def Manifest.new_incomplete : Manifest :=
  { files := [], version := 1, incomplete_update := true }

/-- `HashMap::get` on the association list: the entry recorded for `name`. -/
def Manifest.findEntry (m : Manifest) (name : String) : Option ManifestTargetEntry :=
  (m.files.find? (fun kv => kv.1 == name)).map Prod.snd

/-- `HashMap::insert` on the association list: replace the entry for `name`
in place, or append a fresh one (`Manifest::set_target`). -/
def setFiles : List (String × ManifestTargetEntry) → String → ManifestTargetEntry →
    List (String × ManifestTargetEntry)
  | [], name, e => [(name, e)]
  | (k, v) :: rest, name, e =>
    if k == name then (name, e) :: rest else (k, v) :: setFiles rest name e

/-- `Manifest::set_target`: upsert the entry for `target`. -/
def Manifest.set_target (m : Manifest) (target : String) (length : Nat)
    (hash : List (Fin 256)) : Manifest :=
  { m with files := setFiles m.files target { length := length, hash := hash } }

/-- `Manifest::contains_target`. -/
def Manifest.contains_target (m : Manifest) (target : String) : Bool :=
  m.files.any (fun kv => kv.1 == target)

/-- `Manifest::remove_target`. -/
def Manifest.remove_target (m : Manifest) (target : String) : Manifest :=
  { m with files := m.files.filter (fun kv => !(kv.1 == target)) }

/-- `Manifest::is_target_updated`: the recorded entry for `target`, when one
exists, matches the given length OR the given hash; `false` when no entry
exists. -/
def Manifest.is_target_updated (m : Manifest) (target : String) (length : Nat)
    (hash : List (Fin 256)) : Bool :=
  match m.findEntry target with
  | some entry => entry.length == length || decide (entry.hash = hash)
  | none => false

/-- `Manifest::is_updated`: stored version equals the snapshot version and the
last update was complete. -/
def Manifest.is_updated (m : Manifest) (snapshot_version : Nat) : Bool :=
  m.version == snapshot_version && !m.incomplete_update

/-- `Manifest::update_version`. -/
def Manifest.update_version (m : Manifest) (snapshot_version : Nat) : Manifest :=
  { m with version := snapshot_version }

/-- `Manifest::set_update_complete_result`. -/
def Manifest.set_update_complete_result (m : Manifest) (success : Bool) : Manifest :=
  { m with incomplete_update := !success }

/-- `Manifest::load_or_new`: the outcome of `Manifest::load` (a parse of the
file at the path, which may fail for I/O or syntax reasons) is the input;
`load(path).or_else(|_| Ok(new_incomplete()))` recovers from any failure. -/
def Manifest.load_or_new (loaded : Except Unit Manifest) : Except Unit Manifest :=
  match loaded with
  | .ok m => .ok m
  | .error _ => .ok Manifest.new_incomplete

/-- Claim C2: `is_target_updated(name, length, hash)` is true iff the manifest
records an entry for `name` whose length equals the given length or whose hash
equals the given hash, and it is false when no entry for `name` exists. -/
theorem is_target_updated_spec (m : Manifest) (name : String) (length : Nat)
    (hash : List (Fin 256)) :
    (m.is_target_updated name length hash = true ↔
      ∃ entry, m.findEntry name = some entry ∧
        (entry.length = length ∨ entry.hash = hash)) ∧
    (m.findEntry name = none → m.is_target_updated name length hash = false) := by
  constructor
  · unfold Manifest.is_target_updated
    cases h : m.findEntry name with
    | none => simp
    | some entry =>
      simp only [Bool.or_eq_true, beq_iff_eq, decide_eq_true_eq]
      constructor
      · intro hor
        exact ⟨entry, rfl, hor⟩
      · rintro ⟨e, he, hor⟩
        cases he
        exact hor
  · intro h
    unfold Manifest.is_target_updated
    rw [h]

/-- Witness for C2 at a concrete manifest: the entry for "a" matches by
length, and a name with no entry yields `false`. -/
theorem is_target_updated_spec_witness :
    (Manifest.is_target_updated
        { files := [("a", { length := 5, hash := [7] })], version := 1,
          incomplete_update := false } "a" 5 [9] = true ↔
      ∃ entry, Manifest.findEntry
          { files := [("a", { length := 5, hash := [7] })], version := 1,
            incomplete_update := false } "a" = some entry ∧
        (entry.length = 5 ∨ entry.hash = [9])) ∧
    (Manifest.findEntry
        { files := [("a", { length := 5, hash := [7] })], version := 1,
          incomplete_update := false } "b" = none →
      Manifest.is_target_updated
        { files := [("a", { length := 5, hash := [7] })], version := 1,
          incomplete_update := false } "b" 5 [9] = false) :=
  ⟨(is_target_updated_spec _ "a" 5 [9]).1,
   (is_target_updated_spec _ "b" 5 [9]).2⟩

/-- Claim C7: `load_or_new` never fails: for every load outcome it returns a
manifest, and on a load failure (missing or unparsable file) the returned
manifest has version 1, `incomplete_update = true` and an empty file map. -/
theorem load_or_new_total (loaded : Except Unit Manifest) :
    (∃ m, Manifest.load_or_new loaded = .ok m) ∧
    (∀ e, loaded = .error e →
      Manifest.load_or_new loaded =
        .ok { files := [], version := 1, incomplete_update := true }) := by
  cases loaded with
  | ok m => exact ⟨⟨m, rfl⟩, by intro e h; cases h⟩
  | error e =>
    refine ⟨⟨Manifest.new_incomplete, rfl⟩, ?_⟩
    intro e' h
    rfl

/-- Witness for C7 at a concrete failing load. -/
theorem load_or_new_total_witness :
    Manifest.load_or_new (.error ()) =
      .ok { files := [], version := 1, incomplete_update := true } :=
  (load_or_new_total (.error ())).2 () rfl

/-- A remote target (`tough::schema::Target`, restricted to the fields the
updater reads): declared length and sha256 hash. -/
structure Target where
  length : Nat
  hash : List (Fin 256)
  deriving DecidableEq

/-- The progress events of `UpdateProgress` in src/updater.rs. -/
inductive Ev where
  | startFileDownload (name : String)
  | updateFileProgress (done total : Nat)
  | finishFileDownload
  | finishUpdate
  deriving DecidableEq

/-- One observable effect of a reconciliation pass: a progress event delivered
to the watcher, a `repo.save_target` write, a `self_replace::self_delete`
call, a `fs::remove_file` deletion, or the `Manifest::save` persistence step. -/
inductive Eff where
  | emit (e : Ev)
  | saveTarget (name : String)
  | selfDelete
  | removeFile (name : String)
  | saveManifest
  deriving DecidableEq

/-- The updater's surroundings: the repository's target set (in iteration
order, with resolved names), the snapshot version, whether a progress watcher
is attached, the configured `safe_delete_exe_target`, and oracles for the
outcome of each external effect. -/
structure Env where
  targets : List (String × Target)
  snapshotVersion : Nat
  hasWatcher : Bool
  selfTarget : String
  selfDeleteOk : Bool
  saveOk : String → Bool
  deleteOk : String → Bool
  saveManifestOk : Bool

/-- `Updater::update_progress`: the event reaches the trace only when a
watcher is attached. -/
def emitP (env : Env) (tr : List Eff) (e : Ev) : List Eff :=
  tr ++ (if env.hasWatcher then [Eff.emit e] else [])

/-- Writing a file into the distribution directory. -/
def addFile (fs : List String) (name : String) : List String :=
  if fs.contains name then fs else name :: fs

/-- Outcome of `Updater::update_target` for one target: either the
`self_delete().expect(..)` panic, or a new state together with `none` (Ok) or
`some name` (the per-target `UpdateError`, which carries the target name). -/
inductive TargetStep where
  | panic
  | done (m : Manifest) (fs : List String) (tr : List Eff) (err : Option String)
  deriving DecidableEq

/-- Tail of `Updater::update_target`: `repo.save_target` (whose failure is the
per-target error), then the `FinishFileDownload` event and the manifest
upsert. -/
def save_target_step (env : Env) (m : Manifest) (fs : List String) (tr : List Eff)
    (name : String) (t : Target) : TargetStep :=
  if env.saveOk name then
    .done (m.set_target name t.length t.hash) (addFile fs name)
      (emitP env (tr ++ [Eff.saveTarget name]) .finishFileDownload) none
  else
    .done m fs tr (some name)

/-- `Updater::update_target`: skip when `is_target_updated` holds; otherwise
emit the download events, run the self-delete (whose failure panics via
`.expect`), save the target and record it in the manifest. -/
def update_target (env : Env) (m : Manifest) (fs : List String) (tr : List Eff)
    (name : String) (t : Target) : TargetStep :=
  if m.is_target_updated name t.length t.hash then
    .done m fs tr none
  else
    let tr1 := emitP env (emitP env tr (.startFileDownload name)) (.updateFileProgress 50 100)
    if env.selfTarget = name then
      if env.selfDeleteOk then
        save_target_step env m fs (tr1 ++ [Eff.selfDelete]) name t
      else
        .panic
    else
      save_target_step env m fs tr1 name t

/-- Result of the target loop of `Updater::update_all_targets`: the collected
per-target errors (in iteration order) and the final state, or a panic. -/
inductive LoopRes where
  | panic
  | done (errs : List String) (m : Manifest) (fs : List String) (tr : List Eff)
  deriving DecidableEq

/-- The `for (name, target) in targets.targets_iter()` loop of
`update_all_targets`: each failing target contributes its error and the loop
continues with the next target. -/
def updateLoop (env : Env) : List (String × Target) → Manifest → List String →
    List Eff → LoopRes
  | [], m, fs, tr => .done [] m fs tr
  | (name, t) :: rest, m, fs, tr =>
    match update_target env m fs tr name t with
    | .panic => .panic
    | .done m1 fs1 tr1 none => updateLoop env rest m1 fs1 tr1
    | .done m1 fs1 tr1 (some e) =>
      match updateLoop env rest m1 fs1 tr1 with
      | .panic => .panic
      | .done errs m2 fs2 tr2 => .done (e :: errs) m2 fs2 tr2

/-- Result of `Updater::update_all_targets`: the `updated_files` count, the
collected errors and the final state, or a panic. -/
inductive AllRes where
  | panic
  | done (updated : Nat) (errs : List String) (m : Manifest) (fs : List String)
      (tr : List Eff)
  deriving DecidableEq

/-- `Updater::update_all_targets`: run the loop over the whole target set,
compute `updated_files = targets.len() - errs.len()` (truncated subtraction;
claim C10 shows it cannot underflow) and emit `FinishUpdate`. -/
def update_all_targets (env : Env) (m : Manifest) (fs : List String)
    (tr : List Eff) : AllRes :=
  match updateLoop env env.targets m fs tr with
  | .panic => .panic
  | .done errs m1 fs1 tr1 =>
    .done (env.targets.length - errs.length) errs m1 fs1 (emitP env tr1 .finishUpdate)

/-- `Updater::delete_target`: remove the file at `dist_dir/name` when it
exists; a failed removal is the per-target error (carrying the name). -/
def delete_target (env : Env) (fs : List String) (tr : List Eff) (name : String) :
    Option String × List String × List Eff :=
  if fs.contains name then
    if env.deleteOk name then (none, fs.erase name, tr ++ [Eff.removeFile name])
    else (some name, fs, tr)
  else (none, fs, tr)

/-- The `manifest.retain_targets` closure of `delete_removed_targets`, run
over the manifest entries in iteration order: entries in the remote target
set are kept; for every other entry the file deletion is attempted and the
entry is dropped whether or not the deletion succeeded (the closure returns
`false` on both paths). Returns (deleted count, errors, kept entries, fs,
trace). -/
def deleteLoop (env : Env) (names : List String) :
    List (String × ManifestTargetEntry) → List String → List Eff →
    Nat × List String × List (String × ManifestTargetEntry) × List String × List Eff
  | [], fs, tr => (0, [], [], fs, tr)
  | (k, v) :: rest, fs, tr =>
    if names.contains k then
      match deleteLoop env names rest fs tr with
      | (d, errs, keep, fs2, tr2) => (d, errs, (k, v) :: keep, fs2, tr2)
    else
      match delete_target env fs tr k with
      | (none, fs1, tr1) =>
        match deleteLoop env names rest fs1 tr1 with
        | (d, errs, keep, fs2, tr2) => (d + 1, errs, keep, fs2, tr2)
      | (some e, fs1, tr1) =>
        match deleteLoop env names rest fs1 tr1 with
        | (d, errs, keep, fs2, tr2) => (d, e :: errs, keep, fs2, tr2)

/-- `Updater::delete_removed_targets`: build the remote name set, then retain
only manifest entries still in it, deleting the files of the others. -/
def delete_removed_targets (env : Env) (m : Manifest) (fs : List String)
    (tr : List Eff) :
    Nat × List String × Manifest × List String × List Eff :=
  match deleteLoop env (env.targets.map Prod.fst) m.files fs tr with
  | (d, errs, keep, fs1, tr1) => (d, errs, { m with files := keep }, fs1, tr1)

/-- The report of a pass (`UpdateReport` without the wall-clock duration,
which is not modelled). -/
structure Report where
  updated_files : Nat
  deleted_files : Nat
  deriving DecidableEq

/-- `UpdateResult` in src/updater.rs. -/
inductive UpdateOutcome where
  | alreadyUpdated
  | complete (r : Report)
  | incomplete (errs : List String) (r : Report)
  deriving DecidableEq

/-- Result of one `Updater::update()` call: a panic (self-delete `.expect`),
a propagated `anyhow` error (`Manifest::save` failure), or `Ok` with the
outcome, the manifest as persisted, the final distribution directory and the
effect trace. -/
inductive RunResult where
  | panic
  | err
  | ok (o : UpdateOutcome) (m : Manifest) (fs : List String) (tr : List Eff)
  deriving DecidableEq

/-- `Updater::update`: load the manifest, short-circuit when already updated,
run the update pass then the delete pass, mark completeness, advance the
version, persist, and report. `loaded` is the outcome of parsing the manifest
file, `fs` the initial distribution directory. -/
def update (env : Env) (fs : List String) (loaded : Except Unit Manifest) : RunResult :=
  match Manifest.load_or_new loaded with
  | .error _ => .err
  | .ok m =>
    if m.is_updated env.snapshotVersion then
      .ok .alreadyUpdated m fs []
    else
      match update_all_targets env m fs [] with
      | .panic => .panic
      | .done updated uerrs m1 fs1 tr1 =>
        match delete_removed_targets env m1 fs1 tr1 with
        | (deleted, derrs, m2, fs2, tr2) =>
          let errs := uerrs ++ derrs
          let m3 := (m2.set_update_complete_result errs.isEmpty).update_version
            env.snapshotVersion
          if env.saveManifestOk then
            .ok (if errs.isEmpty then .complete { updated_files := updated, deleted_files := deleted }
                 else .incomplete errs { updated_files := updated, deleted_files := deleted })
              m3 fs2 (tr2 ++ [Eff.saveManifest])
          else
            .err

/-- Environment for the delete-failure scenario: empty remote target set, the
file deletion oracle always fails. -/
def envDelFail : Env :=
  { targets := [], snapshotVersion := 2, hasWatcher := false, selfTarget := "",
    selfDeleteOk := true, saveOk := fun _ => true, deleteOk := fun _ => false,
    saveManifestOk := true }

/-- A manifest recording one applied file "a" at version 1, complete. -/
def mDelFail : Manifest :=
  { files := [("a", { length := 1, hash := [] })], version := 1,
    incomplete_update := false }

/-- Claim C1 (code behavior at the failing input): with "a" recorded in the
manifest, absent from the remote set, present on disk, and its deletion
failing, the pass reports the error for "a" and leaves the file on disk, yet
the resulting persisted manifest has an empty file map — the entry was
dropped even though the deletion failed, contradicting the claim that entry
and file then both remain. -/
theorem delete_failure_drops_entry :
    update envDelFail ["a"] (.ok mDelFail) =
      .ok (.incomplete ["a"] { updated_files := 0, deleted_files := 0 })
        { files := [], version := 2, incomplete_update := true } ["a"]
        [Eff.saveManifest] := by
  rfl

/-- Environment for the self-delete-failure scenario: one target "app" needing
an update, configured as the running executable's target, with the
self-delete oracle failing. -/
def envSelfFail : Env :=
  { targets := [("app", { length := 3, hash := [1] })], snapshotVersion := 2,
    hasWatcher := false, selfTarget := "app", selfDeleteOk := false,
    saveOk := fun _ => true, deleteOk := fun _ => true, saveManifestOk := true }

/-- Claim C4 (code behavior at the failing input): when the self-replacement
step fails for the matching target, `update()` panics
(`self_delete().expect("Self delete")`) instead of collecting a per-target
error and continuing — the whole process terminates. -/
theorem self_delete_failure_panics :
    update envSelfFail [] (.error ()) = .panic := by
  rfl

/-- Environment for the skipped-target scenario: one remote target "a" whose
recorded manifest entry already matches by length. -/
def envSkip : Env :=
  { targets := [("a", { length := 5, hash := [2] })], snapshotVersion := 2,
    hasWatcher := true, selfTarget := "", selfDeleteOk := true,
    saveOk := fun _ => true, deleteOk := fun _ => true, saveManifestOk := true }

/-- A manifest already recording "a" with matching length (but from an
incomplete pass, so the version short-circuit does not fire). -/
def mSkip : Manifest :=
  { files := [("a", { length := 5, hash := [3] })], version := 1,
    incomplete_update := true }

/-- Claim C6 counterexample: target "a" is skipped because `is_target_updated`
already holds — the trace contains no download or write for it — yet the
returned report says `updated_files = 1`, not 0: skipped targets are counted. -/
theorem updated_files_counts_skipped :
    update envSkip ["a"] (.ok mSkip) =
      .ok (.complete { updated_files := 1, deleted_files := 0 })
        { files := [("a", { length := 5, hash := [3] })], version := 2,
          incomplete_update := false } ["a"]
        [Eff.emit Ev.finishUpdate, Eff.saveManifest] ∧
    Eff.saveTarget "a" ∉ [Eff.emit Ev.finishUpdate, Eff.saveManifest] ∧
    Eff.emit (Ev.startFileDownload "a") ∉ [Eff.emit Ev.finishUpdate, Eff.saveManifest] := by
  refine ⟨by rfl, by decide, by decide⟩

/-- Environment for the event-ordering counterexample: no targets, a watcher
attached, everything succeeding. -/
def envOrder : Env :=
  { targets := [], snapshotVersion := 1, hasWatcher := true, selfTarget := "",
    selfDeleteOk := true, saveOk := fun _ => true, deleteOk := fun _ => true,
    saveManifestOk := true }

/-- Claim C9 counterexample: in a concrete non-short-circuited pass the whole
effect trace is `[FinishUpdate, saveManifest]` — the `FinishUpdate` event is
emitted (position 0) strictly before the manifest is persisted (position 1),
so it is not the case that `FinishUpdate` is never emitted before the save. -/
theorem finish_update_before_save_cex :
    update envOrder [] (.error ()) =
      .ok (.complete { updated_files := 0, deleted_files := 0 })
        { files := [], version := 1, incomplete_update := false } []
        [Eff.emit Ev.finishUpdate, Eff.saveManifest] ∧
    [Eff.emit Ev.finishUpdate, Eff.saveManifest].indexOf (Eff.emit Ev.finishUpdate) <
      [Eff.emit Ev.finishUpdate, Eff.saveManifest].indexOf Eff.saveManifest := by
  refine ⟨by rfl, by decide⟩

/-- The target loop contributes at most one error per target: the collected
error list is never longer than the processed target list. -/
theorem updateLoop_errs_le (env : Env) (ts : List (String × Target)) :
    ∀ m fs tr errs m' fs' tr', updateLoop env ts m fs tr = .done errs m' fs' tr' →
      errs.length ≤ ts.length := by
  induction ts with
  | nil =>
    intro m fs tr errs m' fs' tr' h
    simp only [updateLoop, LoopRes.done.injEq] at h
    obtain ⟨h1, -, -, -⟩ := h
    subst h1
    simp
  | cons p rest ih =>
    obtain ⟨name, t⟩ := p
    intro m fs tr errs m' fs' tr' h
    simp only [updateLoop] at h
    cases hstep : update_target env m fs tr name t with
    | panic => rw [hstep] at h; cases h
    | done m1 fs1 tr1 e =>
      rw [hstep] at h
      cases e with
      | none =>
        simp only at h
        have := ih m1 fs1 tr1 errs m' fs' tr' h
        simp
        omega
      | some er =>
        simp only at h
        cases hrest : updateLoop env rest m1 fs1 tr1 with
        | panic => rw [hrest] at h; cases h
        | done errs2 m2 fs2 tr2 =>
          rw [hrest] at h
          simp only [LoopRes.done.injEq] at h
          obtain ⟨h1, -, -, -⟩ := h
          subst h1
          have := ih m1 fs1 tr1 errs2 m2 fs2 tr2 hrest
          simp
          omega

/-- `update_all_targets` counting facts shared by several claims: the error
list is bounded by the target count and `updated_files` is their truncated
difference. -/
theorem update_all_targets_counts (env : Env) (m : Manifest) (fs : List String)
    (tr : List Eff) (u : Nat) (errs : List String) (m' : Manifest)
    (fs' : List String) (tr' : List Eff) :
    update_all_targets env m fs tr = .done u errs m' fs' tr' →
      errs.length ≤ env.targets.length ∧ u = env.targets.length - errs.length := by
  intro h
  unfold update_all_targets at h
  cases hl : updateLoop env env.targets m fs tr with
  | panic => rw [hl] at h; cases h
  | done errs2 m2 fs2 tr2 =>
    rw [hl] at h
    simp only [AllRes.done.injEq] at h
    obtain ⟨hu, herrs, -, -, -⟩ := h
    constructor
    · rw [← herrs]
      exact updateLoop_errs_le env env.targets m fs tr errs2 m2 fs2 tr2 hl
    · rw [← herrs, ← hu]

/-- Claim C10: the subtraction computing `updated_files` never underflows —
each target contributes at most one collected error, so the error count is at
most the target count and `updated_files + errs.len = targets.len` exactly. -/
theorem updated_files_no_underflow (env : Env) (m : Manifest) (fs : List String)
    (tr : List Eff) (u : Nat) (errs : List String) (m' : Manifest)
    (fs' : List String) (tr' : List Eff) :
    update_all_targets env m fs tr = .done u errs m' fs' tr' →
      errs.length ≤ env.targets.length ∧ u + errs.length = env.targets.length := by
  intro h
  obtain ⟨hle, hu⟩ := update_all_targets_counts env m fs tr u errs m' fs' tr' h
  subst hu
  exact ⟨hle, Nat.sub_add_cancel hle⟩

/-- Environment for the failing-save scenario: one remote target "a" whose
write fails. -/
def envSaveFail : Env :=
  { targets := [("a", { length := 5, hash := [2] })], snapshotVersion := 2,
    hasWatcher := false, selfTarget := "", selfDeleteOk := true,
    saveOk := fun _ => false, deleteOk := fun _ => true, saveManifestOk := true }

/-- Witness for C10 at a concrete run in which the single target fails. -/
theorem updated_files_no_underflow_witness :
    (["a"] : List String).length ≤ envSaveFail.targets.length ∧
    0 + (["a"] : List String).length = envSaveFail.targets.length :=
  updated_files_no_underflow envSaveFail Manifest.new_incomplete [] [] 0 ["a"]
    Manifest.new_incomplete [] [] (by rfl)

/-- Claim C6 (amended): `updated_files` equals the number of remote targets
minus the number of collected per-target update errors; targets skipped
because `is_target_updated` already held are counted as updated. -/
theorem updated_files_eq_targets_sub_errs (env : Env) (m : Manifest)
    (fs : List String) (tr : List Eff) (u : Nat) (errs : List String)
    (m' : Manifest) (fs' : List String) (tr' : List Eff) :
    update_all_targets env m fs tr = .done u errs m' fs' tr' →
      u = env.targets.length - errs.length ∧ errs.length ≤ env.targets.length := by
  intro h
  obtain ⟨hle, hu⟩ := update_all_targets_counts env m fs tr u errs m' fs' tr' h
  exact ⟨hu, hle⟩

/-- Witness for the amended C6 at a concrete run in which the single target
fails to write. -/
theorem updated_files_eq_targets_sub_errs_witness :
    0 = envSaveFail.targets.length - (["a"] : List String).length ∧
    (["a"] : List String).length ≤ envSaveFail.targets.length :=
  updated_files_eq_targets_sub_errs envSaveFail Manifest.new_incomplete [] [] 0
    ["a"] Manifest.new_incomplete [] [] (by rfl)

/-- The trace segment appended by the save step never contains the
`saveManifest` marker or the `FinishUpdate` event. -/
theorem save_target_step_trace (env : Env) (m : Manifest) (fs : List String)
    (tr : List Eff) (name : String) (t : Target) (m1 : Manifest)
    (fs1 : List String) (tr1 : List Eff) (e : Option String) :
    save_target_step env m fs tr name t = .done m1 fs1 tr1 e →
    ∃ d, tr1 = tr ++ d ∧ ∀ x ∈ d, x ≠ Eff.saveManifest ∧ x ≠ Eff.emit Ev.finishUpdate := by
  intro h
  cases hw : env.hasWatcher with
  | false =>
    simp only [save_target_step, emitP, hw, Bool.false_eq_true, ite_false, List.append_nil] at h
    split at h
    · simp only [TargetStep.done.injEq] at h
      obtain ⟨-, -, htr, -⟩ := h
      refine ⟨[Eff.saveTarget name], htr.symm, ?_⟩
      intro x hx
      simp only [List.mem_singleton] at hx
      subst hx
      simp
    · simp only [TargetStep.done.injEq] at h
      obtain ⟨-, -, htr, -⟩ := h
      refine ⟨[], by simp [htr.symm], by simp⟩
  | true =>
    simp only [save_target_step, emitP, hw, ite_true] at h
    split at h
    · simp only [TargetStep.done.injEq] at h
      obtain ⟨-, -, htr, -⟩ := h
      refine ⟨[Eff.saveTarget name, Eff.emit Ev.finishFileDownload], ?_, ?_⟩
      · rw [← htr]
        simp
      · intro x hx
        simp only [List.mem_cons, List.mem_singleton] at hx
        rcases hx with rfl | rfl | hx
        · simp
        · simp
        · cases hx
    · simp only [TargetStep.done.injEq] at h
      obtain ⟨-, -, htr, -⟩ := h
      refine ⟨[], by simp [htr.symm], by simp⟩

/-- The trace segment appended by one `update_target` call contains neither
the `saveManifest` marker nor the `FinishUpdate` event. -/
theorem update_target_trace (env : Env) (m : Manifest) (fs : List String)
    (tr : List Eff) (name : String) (t : Target) (m1 : Manifest)
    (fs1 : List String) (tr1 : List Eff) (e : Option String) :
    update_target env m fs tr name t = .done m1 fs1 tr1 e →
    ∃ d, tr1 = tr ++ d ∧ ∀ x ∈ d, x ≠ Eff.saveManifest ∧ x ≠ Eff.emit Ev.finishUpdate := by
  intro h
  unfold update_target at h
  have hemit : ∃ d0,
      emitP env (emitP env tr (.startFileDownload name)) (.updateFileProgress 50 100) =
        tr ++ d0 ∧ ∀ x ∈ d0, x ≠ Eff.saveManifest ∧ x ≠ Eff.emit Ev.finishUpdate := by
    cases hw : env.hasWatcher with
    | false => exact ⟨[], by simp [emitP, hw], by simp⟩
    | true =>
      refine ⟨[Eff.emit (Ev.startFileDownload name), Eff.emit (Ev.updateFileProgress 50 100)],
        by simp [emitP, hw], ?_⟩
      intro x hx
      simp only [List.mem_cons, List.mem_singleton] at hx
      rcases hx with rfl | rfl | hx
      · simp
      · simp
      · cases hx
  obtain ⟨d0, hd0, hb0⟩ := hemit
  rw [hd0] at h
  split at h
  · simp only [TargetStep.done.injEq] at h
    obtain ⟨-, -, htr, -⟩ := h
    refine ⟨[], by simp [htr.symm], by simp⟩
  · split at h
    · split at h
      · obtain ⟨d1, hd1, hb1⟩ :=
          save_target_step_trace env m fs (tr ++ d0 ++ [Eff.selfDelete]) name t m1 fs1 tr1 e h
        refine ⟨d0 ++ [Eff.selfDelete] ++ d1, ?_, ?_⟩
        · rw [hd1]
          simp
        · intro x hx
          simp only [List.mem_append, List.mem_singleton] at hx
          rcases hx with (hx | rfl) | hx
          · exact hb0 x hx
          · simp
          · exact hb1 x hx
      · cases h
    · obtain ⟨d1, hd1, hb1⟩ := save_target_step_trace env m fs (tr ++ d0) name t m1 fs1 tr1 e h
      refine ⟨d0 ++ d1, ?_, ?_⟩
      · rw [hd1]
        simp
      · intro x hx
        simp only [List.mem_append] at hx
        rcases hx with hx | hx
        · exact hb0 x hx
        · exact hb1 x hx

/-- The trace segment appended by the whole target loop contains neither the
`saveManifest` marker nor the `FinishUpdate` event. -/
theorem updateLoop_trace (env : Env) (ts : List (String × Target)) :
    ∀ m fs tr errs m' fs' tr', updateLoop env ts m fs tr = .done errs m' fs' tr' →
    ∃ d, tr' = tr ++ d ∧ ∀ x ∈ d, x ≠ Eff.saveManifest ∧ x ≠ Eff.emit Ev.finishUpdate := by
  induction ts with
  | nil =>
    intro m fs tr errs m' fs' tr' h
    simp only [updateLoop, LoopRes.done.injEq] at h
    obtain ⟨-, -, -, htr⟩ := h
    refine ⟨[], by simp [htr.symm], by simp⟩
  | cons p rest ih =>
    obtain ⟨name, t⟩ := p
    intro m fs tr errs m' fs' tr' h
    simp only [updateLoop] at h
    cases hstep : update_target env m fs tr name t with
    | panic => rw [hstep] at h; cases h
    | done m1 fs1 tr1 e =>
      rw [hstep] at h
      obtain ⟨d1, hd1, hb1⟩ :=
        update_target_trace env m fs tr name t m1 fs1 tr1 e hstep
      cases e with
      | none =>
        simp only at h
        obtain ⟨d2, hd2, hb2⟩ := ih m1 fs1 tr1 errs m' fs' tr' h
        refine ⟨d1 ++ d2, ?_, ?_⟩
        · rw [hd2, hd1]
          simp
        · intro x hx
          simp only [List.mem_append] at hx
          rcases hx with hx | hx
          · exact hb1 x hx
          · exact hb2 x hx
      | some er =>
        simp only at h
        cases hrest : updateLoop env rest m1 fs1 tr1 with
        | panic => rw [hrest] at h; cases h
        | done errs2 m2 fs2 tr2 =>
          rw [hrest] at h
          simp only [LoopRes.done.injEq] at h
          obtain ⟨-, -, -, htr⟩ := h
          obtain ⟨d2, hd2, hb2⟩ := ih m1 fs1 tr1 errs2 m2 fs2 tr2 hrest
          refine ⟨d1 ++ d2, ?_, ?_⟩
          · rw [← htr, hd2, hd1]
            simp
          · intro x hx
            simp only [List.mem_append] at hx
            rcases hx with hx | hx
            · exact hb1 x hx
            · exact hb2 x hx

/-- The trace segment appended by one `delete_target` call consists only of
`removeFile` effects. -/
theorem delete_target_trace (env : Env) (fs : List String) (tr : List Eff)
    (name : String) (err : Option String) (fs1 : List String) (tr1 : List Eff) :
    delete_target env fs tr name = (err, fs1, tr1) →
    ∃ d, tr1 = tr ++ d ∧ ∀ x ∈ d, ∃ n, x = Eff.removeFile n := by
  intro h
  unfold delete_target at h
  split at h
  · split at h
    · simp only [Prod.mk.injEq] at h
      obtain ⟨-, -, htr⟩ := h
      refine ⟨[Eff.removeFile name], htr.symm, ?_⟩
      intro x hx
      simp only [List.mem_singleton] at hx
      exact ⟨name, hx⟩
    · simp only [Prod.mk.injEq] at h
      obtain ⟨-, -, htr⟩ := h
      refine ⟨[], by simp [htr.symm], by simp⟩
  · simp only [Prod.mk.injEq] at h
    obtain ⟨-, -, htr⟩ := h
    refine ⟨[], by simp [htr.symm], by simp⟩

/-- The trace segment appended by the delete pass consists only of
`removeFile` effects. -/
theorem deleteLoop_trace (env : Env) (names : List String)
    (files : List (String × ManifestTargetEntry)) :
    ∀ fs tr d errs keep fs' tr', deleteLoop env names files fs tr = (d, errs, keep, fs', tr') →
    ∃ dd, tr' = tr ++ dd ∧ ∀ x ∈ dd, ∃ n, x = Eff.removeFile n := by
  induction files with
  | nil =>
    intro fs tr d errs keep fs' tr' h
    simp only [deleteLoop, Prod.mk.injEq] at h
    obtain ⟨-, -, -, -, htr⟩ := h
    refine ⟨[], by simp [htr.symm], by simp⟩
  | cons kv rest ih =>
    obtain ⟨k, v⟩ := kv
    intro fs tr d errs keep fs' tr' h
    simp only [deleteLoop] at h
    split at h
    · cases hrest : deleteLoop env names rest fs tr with
      | mk d2 rest2 =>
        rw [hrest] at h
        obtain ⟨errs2, keep2, fs2, tr2⟩ := rest2
        simp only [Prod.mk.injEq] at h
        obtain ⟨-, -, -, -, htr⟩ := h
        obtain ⟨dd, hdd, hb⟩ := ih fs tr d2 errs2 keep2 fs2 tr2 hrest
        exact ⟨dd, by rw [← htr, hdd], hb⟩
    · cases hdel : delete_target env fs tr k with
      | mk e1 rest1 =>
        rw [hdel] at h
        obtain ⟨fs1, tr1⟩ := rest1
        obtain ⟨d1, hd1, hb1⟩ := delete_target_trace env fs tr k e1 fs1 tr1 hdel
        cases e1 with
        | none =>
          simp only at h
          cases hrest : deleteLoop env names rest fs1 tr1 with
          | mk d2 rest2 =>
            rw [hrest] at h
            obtain ⟨errs2, keep2, fs2, tr2⟩ := rest2
            simp only [Prod.mk.injEq] at h
            obtain ⟨-, -, -, -, htr⟩ := h
            obtain ⟨dd, hdd, hb⟩ := ih fs1 tr1 d2 errs2 keep2 fs2 tr2 hrest
            refine ⟨d1 ++ dd, ?_, ?_⟩
            · rw [← htr, hdd, hd1]
              simp
            · intro x hx
              simp only [List.mem_append] at hx
              rcases hx with hx | hx
              · exact hb1 x hx
              · exact hb x hx
        | some er =>
          simp only at h
          cases hrest : deleteLoop env names rest fs1 tr1 with
          | mk d2 rest2 =>
            rw [hrest] at h
            obtain ⟨errs2, keep2, fs2, tr2⟩ := rest2
            simp only [Prod.mk.injEq] at h
            obtain ⟨-, -, -, -, htr⟩ := h
            obtain ⟨dd, hdd, hb⟩ := ih fs1 tr1 d2 errs2 keep2 fs2 tr2 hrest
            refine ⟨d1 ++ dd, ?_, ?_⟩
            · rw [← htr, hdd, hd1]
              simp
            · intro x hx
              simp only [List.mem_append] at hx
              rcases hx with hx | hx
              · exact hb1 x hx
              · exact hb x hx

/-- The delete pass attempts every stale manifest entry exactly once: the
deleted count plus the error count equals the number of entries whose name is
absent from the remote target-name set. -/
theorem deleteLoop_counts (env : Env) (names : List String)
    (files : List (String × ManifestTargetEntry)) :
    ∀ fs tr d errs keep fs' tr', deleteLoop env names files fs tr = (d, errs, keep, fs', tr') →
      d + errs.length = (files.filter (fun kv => !(names.contains kv.1))).length := by
  induction files with
  | nil =>
    intro fs tr d errs keep fs' tr' h
    simp only [deleteLoop, Prod.mk.injEq] at h
    obtain ⟨h1, h2, -, -, -⟩ := h
    subst h1
    subst h2
    simp
  | cons kv rest ih =>
    obtain ⟨k, v⟩ := kv
    intro fs tr d errs keep fs' tr' h
    simp only [deleteLoop] at h
    split at h
    · rename_i hin
      cases hrest : deleteLoop env names rest fs tr with
      | mk d2 rest2 =>
        rw [hrest] at h
        obtain ⟨errs2, keep2, fs2, tr2⟩ := rest2
        simp only [Prod.mk.injEq] at h
        obtain ⟨h1, h2, -, -, -⟩ := h
        subst h1
        subst h2
        have hin' : k ∈ names := by simpa using hin
        have := ih fs tr d2 errs2 keep2 fs2 tr2 hrest
        simpa [List.filter_cons, hin'] using this
    · rename_i hnotin
      cases hdel : delete_target env fs tr k with
      | mk e1 rest1 =>
        rw [hdel] at h
        obtain ⟨fs1, tr1⟩ := rest1
        cases e1 with
        | none =>
          simp only at h
          cases hrest : deleteLoop env names rest fs1 tr1 with
          | mk d2 rest2 =>
            rw [hrest] at h
            obtain ⟨errs2, keep2, fs2, tr2⟩ := rest2
            simp only [Prod.mk.injEq] at h
            obtain ⟨h1, h2, -, -, -⟩ := h
            subst h1
            subst h2
            have := ih fs1 tr1 d2 errs2 keep2 fs2 tr2 hrest
            simp only [List.filter_cons]
            have hnotin' : (names.contains k) = false := by
              cases hnk : names.contains k
              · rfl
              · exact absurd hnk hnotin
            rw [hnotin']
            simp only [Bool.not_false, if_pos]
            simp only [List.length_cons]
            omega
        | some er =>
          simp only at h
          cases hrest : deleteLoop env names rest fs1 tr1 with
          | mk d2 rest2 =>
            rw [hrest] at h
            obtain ⟨errs2, keep2, fs2, tr2⟩ := rest2
            simp only [Prod.mk.injEq] at h
            obtain ⟨h1, h2, -, -, -⟩ := h
            subst h1
            subst h2
            have := ih fs1 tr1 d2 errs2 keep2 fs2 tr2 hrest
            have hnotin' : (names.contains k) = false := by
              cases hnk : names.contains k
              · rfl
              · exact absurd hnk hnotin
            simp only [List.filter_cons, hnotin', Bool.not_false, if_pos,
              List.length_cons]
            simp only [List.length_cons] at this ⊢
            omega

/-- Wrapper of `deleteLoop_counts` at the `delete_removed_targets` level. -/
theorem delete_removed_targets_counts (env : Env) (m : Manifest) (fs : List String)
    (tr : List Eff) (d : Nat) (errs : List String) (m' : Manifest)
    (fs' : List String) (tr' : List Eff) :
    delete_removed_targets env m fs tr = (d, errs, m', fs', tr') →
      d + errs.length =
        (m.files.filter (fun kv => !((env.targets.map Prod.fst).contains kv.1))).length := by
  intro h
  unfold delete_removed_targets at h
  cases hdl : deleteLoop env (env.targets.map Prod.fst) m.files fs tr with
  | mk d2 rest2 =>
    rw [hdl] at h
    obtain ⟨errs2, keep2, fs2, tr2⟩ := rest2
    simp only [Prod.mk.injEq] at h
    obtain ⟨h1, h2, -, -, -⟩ := h
    rw [← h1, ← h2]
    exact deleteLoop_counts env _ m.files fs tr d2 errs2 keep2 fs2 tr2 hdl

/-- Wrapper of `deleteLoop_trace` at the `delete_removed_targets` level. -/
theorem delete_removed_targets_trace (env : Env) (m : Manifest) (fs : List String)
    (tr : List Eff) (d : Nat) (errs : List String) (m' : Manifest)
    (fs' : List String) (tr' : List Eff) :
    delete_removed_targets env m fs tr = (d, errs, m', fs', tr') →
    ∃ dd, tr' = tr ++ dd ∧ ∀ x ∈ dd, ∃ n, x = Eff.removeFile n := by
  intro h
  unfold delete_removed_targets at h
  cases hdl : deleteLoop env (env.targets.map Prod.fst) m.files fs tr with
  | mk d2 rest2 =>
    rw [hdl] at h
    obtain ⟨errs2, keep2, fs2, tr2⟩ := rest2
    simp only [Prod.mk.injEq] at h
    obtain ⟨-, -, -, -, htr⟩ := h
    obtain ⟨dd, hdd, hb⟩ :=
      deleteLoop_trace env _ m.files fs tr d2 errs2 keep2 fs2 tr2 hdl
    exact ⟨dd, by rw [← htr, hdd], hb⟩

/-- Inversion of a completed, non-short-circuited `update()` call into its
phases: the loaded manifest, the update pass, the delete pass, the persisted
manifest and the outcome shape. -/
theorem update_ok_inv (env : Env) (fs : List String) (lr : Except Unit Manifest)
    (o : UpdateOutcome) (m' : Manifest) (fs' : List String) (tr : List Eff)
    (h : update env fs lr = .ok o m' fs' tr) (hne : o ≠ .alreadyUpdated) :
    ∃ m u uerrs m1 fs1 tr1 deleted derrs m2 fs2 tr2,
      Manifest.load_or_new lr = .ok m ∧
      m.is_updated env.snapshotVersion = false ∧
      update_all_targets env m fs [] = .done u uerrs m1 fs1 tr1 ∧
      delete_removed_targets env m1 fs1 tr1 = (deleted, derrs, m2, fs2, tr2) ∧
      env.saveManifestOk = true ∧
      m' = (m2.set_update_complete_result (uerrs ++ derrs).isEmpty).update_version
        env.snapshotVersion ∧
      fs' = fs2 ∧
      tr = tr2 ++ [Eff.saveManifest] ∧
      o = (if (uerrs ++ derrs).isEmpty then
             UpdateOutcome.complete { updated_files := u, deleted_files := deleted }
           else
             UpdateOutcome.incomplete (uerrs ++ derrs)
               { updated_files := u, deleted_files := deleted }) := by
  unfold update at h
  cases hlr : Manifest.load_or_new lr with
  | error e => rw [hlr] at h; cases h
  | ok m =>
    rw [hlr] at h
    simp only at h
    split at h
    · rename_i hupd
      simp only [RunResult.ok.injEq] at h
      exact absurd h.1.symm hne
    · rename_i hupd
      cases hall : update_all_targets env m fs [] with
      | panic => rw [hall] at h; cases h
      | done u uerrs m1 fs1 tr1 =>
        rw [hall] at h
        simp only at h
        cases hdel : delete_removed_targets env m1 fs1 tr1 with
        | mk deleted rest2 =>
          rw [hdel] at h
          obtain ⟨derrs, m2, fs2, tr2⟩ := rest2
          simp only at h
          split at h
          · rename_i hsave
            simp only [RunResult.ok.injEq] at h
            obtain ⟨ho, hm, hfs, htr⟩ := h
            exact ⟨m, u, uerrs, m1, fs1, tr1, deleted, derrs, m2, fs2, tr2,
              rfl, Bool.not_eq_true _ ▸ Bool.of_not_eq_true hupd, hall, hdel, hsave,
              hm.symm, hfs.symm, htr.symm, ho.symm⟩
          · cases h

/-- Claim C3: in a completed, non-short-circuited pass, the persisted
manifest's version is the snapshot version regardless of outcome, its
incomplete flag is set exactly when a failure occurred, the result is
`CompleteUpdate` iff the error list is empty and an `IncompleteUpdate` carries
a nonempty error list; a failing target never aborts the loop (its error is
collected and the remaining targets are processed); and the delete pass
attempts every stale manifest entry, each accounted once as deleted or as an
error. -/
theorem update_pass_error_collection :
    (∀ (env : Env) (fs : List String) (lr : Except Unit Manifest) (o : UpdateOutcome)
        (m' : Manifest) (fs' : List String) (tr : List Eff),
      update env fs lr = .ok o m' fs' tr → o ≠ .alreadyUpdated →
      m'.version = env.snapshotVersion ∧
      (m'.incomplete_update = false ↔ ∃ r, o = .complete r) ∧
      (∀ es r, o = .incomplete es r → es ≠ [] ∧ m'.incomplete_update = true)) ∧
    (∀ (env : Env) (name : String) (t : Target) (rest : List (String × Target))
        (m : Manifest) (fs : List String) (tr : List Eff) (m2 : Manifest)
        (fs2 : List String) (tr2 : List Eff) (e : String) (errs : List String)
        (m3 : Manifest) (fs3 : List String) (tr3 : List Eff),
      update_target env m fs tr name t = .done m2 fs2 tr2 (some e) →
      updateLoop env rest m2 fs2 tr2 = .done errs m3 fs3 tr3 →
      updateLoop env ((name, t) :: rest) m fs tr = .done (e :: errs) m3 fs3 tr3) ∧
    (∀ (env : Env) (m : Manifest) (fs : List String) (tr : List Eff) (deleted : Nat)
        (derrs : List String) (m'' : Manifest) (fs'' : List String) (tr'' : List Eff),
      delete_removed_targets env m fs tr = (deleted, derrs, m'', fs'', tr'') →
      deleted + derrs.length =
        (m.files.filter (fun kv => !((env.targets.map Prod.fst).contains kv.1))).length) := by
  refine ⟨?_, ?_, ?_⟩
  · intro env fs lr o m' fs' tr h hne
    obtain ⟨m, u, uerrs, m1, fs1, tr1, deleted, derrs, m2, fs2, tr2,
      hlr, hupd, hall, hdel, hsave, hm, hfs, htr, ho⟩ :=
      update_ok_inv env fs lr o m' fs' tr h hne
    have hver : m'.version = env.snapshotVersion := by
      rw [hm]
      rfl
    have hinc : m'.incomplete_update = !(uerrs ++ derrs).isEmpty := by
      rw [hm]
      rfl
    cases hl : uerrs ++ derrs with
    | nil =>
      have hE : (uerrs ++ derrs).isEmpty = true := by rw [hl]; rfl
      rw [hE] at ho
      simp only [if_pos] at ho
      refine ⟨hver, ?_, ?_⟩
      · rw [hinc, hE]
        exact ⟨fun _ => ⟨_, ho⟩, fun _ => rfl⟩
      · intro es r hes
        rw [ho] at hes
        cases hes
    | cons a as =>
      have hE : (uerrs ++ derrs).isEmpty = false := by rw [hl]; rfl
      rw [hE] at ho
      simp only [Bool.false_eq_true, if_false] at ho
      refine ⟨hver, ?_, ?_⟩
      · rw [hinc, hE]
        simp only [Bool.not_false]
        constructor
        · intro hx
          cases hx
        · rintro ⟨r, hr⟩
          rw [ho] at hr
          cases hr
      · intro es r hes
        rw [ho] at hes
        injection hes with hes1 hes2
        refine ⟨?_, by rw [hinc, hE]; rfl⟩
        rw [← hes1, hl]
        simp
  · intro env name t rest m fs tr m2 fs2 tr2 e errs m3 fs3 tr3 h1 h2
    simp only [updateLoop, h1]
    simp only [h2]
  · intro env m fs tr deleted derrs m'' fs'' tr'' h
    exact delete_removed_targets_counts env m fs tr deleted derrs m'' fs'' tr'' h

/-- Witness for C3: part one at a concrete complete pass, part two at a
concrete failing target, part three at a concrete failing deletion. -/
theorem update_pass_error_collection_witness :
    ((⟨[], 1, false⟩ : Manifest).version = envOrder.snapshotVersion ∧
      ((⟨[], 1, false⟩ : Manifest).incomplete_update = false ↔
        ∃ r, UpdateOutcome.complete { updated_files := 0, deleted_files := 0 } =
          .complete r) ∧
      (∀ es r, UpdateOutcome.complete { updated_files := 0, deleted_files := 0 } =
          .incomplete es r →
        es ≠ [] ∧ (⟨[], 1, false⟩ : Manifest).incomplete_update = true)) ∧
    (updateLoop envSaveFail [("a", { length := 5, hash := [2] })]
        Manifest.new_incomplete [] [] =
      .done ["a"] Manifest.new_incomplete [] []) ∧
    (0 + (["a"] : List String).length =
      (mDelFail.files.filter
        (fun kv => !((envDelFail.targets.map Prod.fst).contains kv.1))).length) :=
  ⟨update_pass_error_collection.1 envOrder [] (.error ())
      (.complete { updated_files := 0, deleted_files := 0 }) ⟨[], 1, false⟩ []
      [Eff.emit Ev.finishUpdate, Eff.saveManifest] (by rfl) (by decide),
   update_pass_error_collection.2.1 envSaveFail "a" { length := 5, hash := [2] } []
      Manifest.new_incomplete [] [] Manifest.new_incomplete [] [] "a" []
      Manifest.new_incomplete [] [] (by rfl) (by rfl),
   update_pass_error_collection.2.2 envDelFail mDelFail ["a"] [] 0 ["a"]
      ⟨[], 1, false⟩ ["a"] [] (by rfl)⟩

/-- Claim C5: when the loaded manifest satisfies `is_updated` for the snapshot
version, `update()` returns `AlreadyUpdated` with no effects at all (empty
trace, untouched distribution directory); consequently a second `update()`
after a fully successful pass against the same target source is such a
no-effect `AlreadyUpdated` call. -/
theorem already_updated_short_circuit :
    (∀ (env : Env) (fs : List String) (m0 : Manifest),
      m0.is_updated env.snapshotVersion = true →
      update env fs (.ok m0) = .ok .alreadyUpdated m0 fs []) ∧
    (∀ (env : Env) (fs : List String) (lr : Except Unit Manifest) (r : Report)
        (m' : Manifest) (fs' : List String) (tr : List Eff),
      update env fs lr = .ok (.complete r) m' fs' tr →
      update env fs' (.ok m') = .ok .alreadyUpdated m' fs' []) := by
  have hshort : ∀ (env : Env) (fs : List String) (m0 : Manifest),
      m0.is_updated env.snapshotVersion = true →
      update env fs (.ok m0) = .ok .alreadyUpdated m0 fs [] := by
    intro env fs m0 h0
    unfold update Manifest.load_or_new
    simp [h0]
  refine ⟨hshort, ?_⟩
  intro env fs lr r m' fs' tr h
  obtain ⟨m, u, uerrs, m1, fs1, tr1, deleted, derrs, m2, fs2, tr2,
    hlr, hupd, hall, hdel, hsave, hm, hfs, htr, ho⟩ :=
    update_ok_inv env fs lr (.complete r) m' fs' tr h (by simp)
  cases hE : (uerrs ++ derrs).isEmpty with
  | false =>
    rw [hE] at ho
    simp only [Bool.false_eq_true, if_false] at ho
    cases ho
  | true =>
    apply hshort
    rw [hm]
    simp [Manifest.is_updated, Manifest.update_version,
      Manifest.set_update_complete_result, hE]

/-- Witness for C5: the short-circuit at a concrete up-to-date manifest, and
the second call after a concrete successful pass. -/
theorem already_updated_short_circuit_witness :
    update envOrder [] (.ok ⟨[], 1, false⟩) = .ok .alreadyUpdated ⟨[], 1, false⟩ [] [] ∧
    update envOrder [] (.ok ⟨[], 1, false⟩) = .ok .alreadyUpdated ⟨[], 1, false⟩ [] [] :=
  ⟨already_updated_short_circuit.1 envOrder [] ⟨[], 1, false⟩ (by rfl),
   already_updated_short_circuit.2 envOrder [] (.error ())
     { updated_files := 0, deleted_files := 0 } ⟨[], 1, false⟩ []
     [Eff.emit Ev.finishUpdate, Eff.saveManifest] (by rfl)⟩

/-- Claim C9 (amended): in every completed, non-short-circuited pass with a
watcher attached, the `FinishUpdate` event is emitted exactly at the end of
the target-update pass — after the per-target events but strictly BEFORE the
delete pass's file removals and before the manifest is persisted. -/
theorem finish_update_precedes_save (env : Env) (fs : List String)
    (lr : Except Unit Manifest) (o : UpdateOutcome) (m' : Manifest)
    (fs' : List String) (tr : List Eff)
    (h : update env fs lr = .ok o m' fs' tr) (hne : o ≠ .alreadyUpdated)
    (hw : env.hasWatcher = true) :
    ∃ pre mid, tr = pre ++ [Eff.emit Ev.finishUpdate] ++ mid ++ [Eff.saveManifest] ∧
      Eff.saveManifest ∉ pre ∧ Eff.emit Ev.finishUpdate ∉ pre ∧
      ∀ x ∈ mid, ∃ n, x = Eff.removeFile n := by
  obtain ⟨m, u, uerrs, m1, fs1, tr1, deleted, derrs, m2, fs2, tr2,
    hlr, hupd, hall, hdel, hsave, hm, hfs, htr, ho⟩ :=
    update_ok_inv env fs lr o m' fs' tr h hne
  unfold update_all_targets at hall
  cases hl : updateLoop env env.targets m fs [] with
  | panic => rw [hl] at hall; cases hall
  | done errsL mL fsL trL =>
    rw [hl] at hall
    simp only [AllRes.done.injEq] at hall
    obtain ⟨-, -, -, -, htr1⟩ := hall
    obtain ⟨dU, hdU, hbU⟩ :=
      updateLoop_trace env env.targets m fs [] errsL mL fsL trL hl
    obtain ⟨dD, hdD, hbD⟩ :=
      delete_removed_targets_trace env m1 fs1 tr1 deleted derrs m2 fs2 tr2 hdel
    refine ⟨dU, dD, ?_, ?_, ?_, hbD⟩
    · rw [htr, hdD, ← htr1]
      unfold emitP
      rw [hw, hdU]
      simp
    · intro hmem
      exact (hbU _ hmem).1 rfl
    · intro hmem
      exact (hbU _ hmem).2 rfl

/-- Witness for the amended C9 at a concrete pass with one skipped target. -/
theorem finish_update_precedes_save_witness :
    ∃ pre mid,
      ([Eff.emit Ev.finishUpdate, Eff.saveManifest] : List Eff) =
        pre ++ [Eff.emit Ev.finishUpdate] ++ mid ++ [Eff.saveManifest] ∧
      Eff.saveManifest ∉ pre ∧ Eff.emit Ev.finishUpdate ∉ pre ∧
      ∀ x ∈ mid, ∃ n, x = Eff.removeFile n :=
  finish_update_precedes_save envSkip ["a"] (.ok mSkip)
    (.complete { updated_files := 1, deleted_files := 0 })
    ⟨[("a", { length := 5, hash := [3] })], 2, false⟩ ["a"]
    [Eff.emit Ev.finishUpdate, Eff.saveManifest] (by rfl) (by decide) (by rfl)

/-- Lower-case hex digit for a value below 16 (the serialization of
`Decoded<Hex>` writes lower-case hex): values below ten map into the digit
block starting at code point 48, the rest into the letter block starting at
code point 97. -/
def hexDigit (n : Nat) : Char :=
  if n < 10 then Char.ofNat (48 + n) else Char.ofNat (87 + n)

/-- Numeric value of a lower-case hex digit, by code-point range. -/
def hexVal (c : Char) : Option Nat :=
  if 48 ≤ c.toNat ∧ c.toNat ≤ 57 then some (c.toNat - 48)
  else if 97 ≤ c.toNat ∧ c.toNat ≤ 102 then some (c.toNat - 87)
  else none

theorem hexVal_hexDigit : ∀ n, n < 16 → hexVal (hexDigit n) = some n := by decide

/-- Hex encoding of a byte sequence, two digits per byte. -/
def hexEncode : List (Fin 256) → List Char
  | [] => []
  | b :: rest => hexDigit (b.val / 16) :: hexDigit (b.val % 16) :: hexEncode rest

/-- Hex decoding of a digit sequence back into bytes. -/
def hexDecode : List Char → Option (List (Fin 256))
  | [] => some []
  | c1 :: c2 :: rest =>
    match hexVal c1, hexVal c2, hexDecode rest with
    | some hi, some lo, some bs =>
      if hb : hi * 16 + lo < 256 then some (⟨hi * 16 + lo, hb⟩ :: bs) else none
    | _, _, _ => none
  | _ :: [] => none

theorem hexDecode_hexEncode (l : List (Fin 256)) : hexDecode (hexEncode l) = some l := by
  induction l with
  | nil => rfl
  | cons b rest ih =>
    have hlt := b.isLt
    have hd : b.val / 16 < 16 := by omega
    have hm : b.val % 16 < 16 := by omega
    simp only [hexEncode, hexDecode, hexVal_hexDigit _ hd, hexVal_hexDigit _ hm, ih]
    have h256 : b.val / 16 * 16 + b.val % 16 < 256 := by omega
    rw [dif_pos h256]
    simp only [Option.some.injEq, List.cons.injEq, Fin.ext_iff]
    exact ⟨by omega, trivial⟩

/-- JSON values, as produced by `serde_json::to_writer` for the manifest and
consumed by `serde_json::from_reader`. -/
inductive Json where
  | num (n : Nat)
  | str (s : String)
  | bool (b : Bool)
  | obj (fields : List (String × Json))

/-- Serialization of one `ManifestTargetEntry` (field declaration order:
`length` as a number, `hash` as a lower-case hex string). -/
def encodeEntry (e : ManifestTargetEntry) : Json :=
  .obj [("length", .num e.length), ("hash", .str (String.mk (hexEncode e.hash)))]

/-- Deserialization of one entry from the canonical serialized layout; the
length must fit in a `u64`, the hash must be valid hex. -/
def decodeEntry : Json → Option ManifestTargetEntry
  | .obj [("length", .num n), ("hash", .str s)] =>
    if n < 2 ^ 64 then
      (hexDecode s.data).map (fun hs => { length := n, hash := hs })
    else
      none
  | _ => none

/-- Serialization of the `files` map, entry by entry in iteration order. -/
def encodeFiles : List (String × ManifestTargetEntry) → List (String × Json)
  | [] => []
  | (k, e) :: rest => (k, encodeEntry e) :: encodeFiles rest

/-- Deserialization of the `files` map. -/
def decodeFiles : List (String × Json) → Option (List (String × ManifestTargetEntry))
  | [] => some []
  | (k, j) :: rest =>
    match decodeEntry j, decodeFiles rest with
    | some e, some es => some ((k, e) :: es)
    | _, _ => none

/-- Serialization of the whole manifest, fields in declaration order:
`files`, `version`, `incomplete_update`. -/
def encodeManifest (m : Manifest) : Json :=
  .obj [("files", .obj (encodeFiles m.files)), ("version", .num m.version),
    ("incomplete_update", .bool m.incomplete_update)]

/-- Deserialization of a manifest from the canonical serialized layout; the
version must be a nonzero `u64` (`NonZeroU64`). -/
def decodeManifest : Json → Option Manifest
  | .obj [("files", .obj fj), ("version", .num v), ("incomplete_update", .bool b)] =>
    if 0 < v ∧ v < 2 ^ 64 then
      (decodeFiles fj).map (fun fs => { files := fs, version := v, incomplete_update := b })
    else
      none
  | _ => none

/-- A manifest representable by the Rust types: nonzero `u64` version and
`u64` entry lengths. -/
def Manifest.valid (m : Manifest) : Prop :=
  0 < m.version ∧ m.version < 2 ^ 64 ∧ ∀ kv ∈ m.files, kv.2.length < 2 ^ 64

theorem decodeEntry_encodeEntry (e : ManifestTargetEntry) (h : e.length < 2 ^ 64) :
    decodeEntry (encodeEntry e) = some e := by
  simp only [encodeEntry, decodeEntry]
  rw [if_pos h]
  simp [hexDecode_hexEncode]

theorem decodeFiles_encodeFiles (fs : List (String × ManifestTargetEntry)) :
    (∀ kv ∈ fs, kv.2.length < 2 ^ 64) → decodeFiles (encodeFiles fs) = some fs := by
  induction fs with
  | nil => intro h; rfl
  | cons kv rest ih =>
    intro h
    obtain ⟨k, e⟩ := kv
    have he : e.length < 2 ^ 64 := h (k, e) (List.mem_cons_self _ _)
    have hrest : ∀ kv ∈ rest, kv.2.length < 2 ^ 64 :=
      fun kv hkv => h kv (List.mem_cons_of_mem _ hkv)
    simp only [encodeFiles, decodeFiles, decodeEntry_encodeEntry e he, ih hrest]

/-- Claim C8: for every valid manifest, serializing (`save`) and parsing back
(`load`) yields a manifest with the same files, version and incomplete flag. -/
theorem manifest_roundtrip (m : Manifest) (h : m.valid) :
    decodeManifest (encodeManifest m) = some m := by
  obtain ⟨h1, h2, h3⟩ := h
  simp only [encodeManifest, decodeManifest]
  rw [if_pos ⟨h1, h2⟩]
  rw [decodeFiles_encodeFiles m.files h3]
  rfl

/-- Witness for C8 at a concrete one-entry manifest. -/
theorem manifest_roundtrip_witness :
    (⟨[("a", { length := 3, hash := [171] })], 2, false⟩ : Manifest).valid ∧
    decodeManifest (encodeManifest ⟨[("a", { length := 3, hash := [171] })], 2, false⟩) =
      some ⟨[("a", { length := 3, hash := [171] })], 2, false⟩ :=
  ⟨by unfold Manifest.valid; decide,
   manifest_roundtrip ⟨[("a", { length := 3, hash := [171] })], 2, false⟩
     (by unfold Manifest.valid; decide)⟩
